import Mathlib

/-!
Shallow embedding of the Council portfolio-simulation engine
(`src/backend/src/agents/base.py`, `src/backend/src/agents/dalio.py`,
`src/backend/src/agents/graham.py`, `src/backend/src/db/models.py`).

Python floats are modelled as rationals (`ℚ`); Python's `int()` truncation is
`pyInt`.  The fundamentals provider (`YFinanceClient.get_fundamentals`) is
modelled as a function `String → Option ℚ` returning the quoted price, since
the execution engine reads only `data.price`; the Graham screener additionally
reads `pe_ratio` and `earnings_growth`, modelled by `StockFundamentals` below
(the `pe_ratio` field is named `pe` here).  Identifier fields (uuids,
timestamps, reasoning strings) carry no logic and are omitted from the
embedded records.
-/

/-- `TransactionType` from `db/models.py`. -/
inductive TransactionType where
  | buy
  | sell
  | dividend
deriving DecidableEq, Repr

/-- `Position` from `db/models.py` (symbol, shares, avg_cost, current_price). -/
structure Position where
  symbol : String
  shares : ℚ
  avg_cost : ℚ
  current_price : ℚ
deriving DecidableEq, Repr

/-- `Position.market_value`: `shares * current_price`. -/
def Position.market_value (p : Position) : ℚ :=
  p.shares * p.current_price

/-- `Portfolio` from `db/models.py`, restricted to the fields the execution
engine reads and writes (`cash`, `positions`). -/
structure Portfolio where
  cash : ℚ
  positions : List Position
deriving DecidableEq, Repr

/-- `Portfolio.total_value`: cash plus the sum of position market values. -/
def Portfolio.total_value (pf : Portfolio) : ℚ :=
  pf.cash + (pf.positions.map Position.market_value).sum

/-- `TradeRecommendation` from `agents/base.py` (reasoning text omitted). -/
structure TradeRecommendation where
  action : TransactionType
  symbol : String
  shares : ℚ
  confidence : ℚ
deriving DecidableEq, Repr

/-- `Transaction` from `db/models.py`, restricted to the fields the execution
engine computes (type, symbol, shares, price). -/
structure Transaction where
  transaction_type : TransactionType
  symbol : String
  shares : ℚ
  price : ℚ
deriving DecidableEq, Repr

/-- Python's `int()` applied to a rational: truncation toward zero. -/
def pyInt (q : ℚ) : ℤ :=
  if 0 ≤ q then ⌊q⌋ else ⌈q⌉

/-- `next((p for p in positions if p.symbol == symbol), None)`: first position
with the given symbol. -/
def findPosition (ps : List Position) (sym : String) : Option Position :=
  ps.find? (fun p => p.symbol == sym)

/-- In-place mutation of the first position bearing `sym`, as Python's
`next(...)` followed by attribute assignment does. -/
def updateFirst (ps : List Position) (sym : String) (f : Position → Position) :
    List Position :=
  match ps with
  | [] => []
  | p :: rest =>
    if p.symbol == sym then f p :: rest else p :: updateFirst rest sym f

/-- `BaseAgent._execute_trade` from `agents/base.py`, given the quoted
`price` (the successful `get_fundamentals` lookup).  Returns the updated
portfolio, the recommendation as left by the call (its `shares` field is
overwritten on a clamped buy, mirroring `recommendation.shares =
affordable_shares`), and the persisted `Transaction` (`none` on decline).
The transaction's `shares` field is `recommendation.shares` as the code
writes it, which for a sell is the requested amount. -/
def execute_trade (price : ℚ) (pf : Portfolio) (rec : TradeRecommendation) :
    Portfolio × TradeRecommendation × Option Transaction :=
  let total_cost := price * rec.shares
  match rec.action with
  | TransactionType.buy =>
    let clamped : Option (ℚ × ℚ) :=
      if pf.cash < total_cost then
        let affordable_shares := pyInt (pf.cash / price)
        if affordable_shares ≤ 0 then none
        else some ((affordable_shares : ℚ), price * (affordable_shares : ℚ))
      else some (rec.shares, total_cost)
    match clamped with
    | none => (pf, rec, none)
    | some (shares, cost) =>
      let rec' := { rec with shares := shares }
      let positions' :=
        match findPosition pf.positions rec.symbol with
        | some _ =>
          updateFirst pf.positions rec.symbol (fun p =>
            let total_shares := p.shares + shares
            let total_invested := p.shares * p.avg_cost + cost
            { p with
                avg_cost := total_invested / total_shares,
                shares := total_shares,
                current_price := price })
        | none =>
          pf.positions ++
            [{ symbol := rec.symbol, shares := shares,
               avg_cost := price, current_price := price }]
      ({ cash := pf.cash - cost, positions := positions' }, rec',
        some ⟨TransactionType.buy, rec.symbol, shares, price⟩)
  | TransactionType.sell =>
    match findPosition pf.positions rec.symbol with
    | none => (pf, rec, none)
    | some existing =>
      let shares_to_sell := min rec.shares existing.shares
      let proceeds := shares_to_sell * price
      let positions₁ := updateFirst pf.positions rec.symbol (fun p =>
        { p with shares := p.shares - shares_to_sell })
      let positions₂ :=
        if existing.shares - shares_to_sell ≤ 0 then
          positions₁.filter (fun p => p.symbol != rec.symbol)
        else positions₁
      ({ cash := pf.cash + proceeds, positions := positions₂ }, rec,
        some ⟨TransactionType.sell, rec.symbol, rec.shares, price⟩)
  | TransactionType.dividend =>
    (pf, rec, some ⟨TransactionType.dividend, rec.symbol, rec.shares, price⟩)

/-- `BaseAgent._execute_trade` including the initial fundamentals lookup:
`md` models `get_fundamentals` projected to its `price` field; a `none`
answer declines with no mutation. -/
def execute_trade_md (md : String → Option ℚ) (pf : Portfolio)
    (rec : TradeRecommendation) :
    Portfolio × TradeRecommendation × Option Transaction :=
  match md rec.symbol with
  | none => (pf, rec, none)
  | some price => execute_trade price pf rec

example :
    (execute_trade 175 ⟨100000, []⟩ ⟨TransactionType.buy, "AAPL", 10, 4/5⟩).1.cash
      = 100000 - 175 * 10 := by
  simp only [execute_trade, findPosition, updateFirst, pyInt]
  norm_num [List.find?]

example :
    (execute_trade 175
        ⟨100000, [⟨"AAPL", 100, 150, 175⟩]⟩
        ⟨TransactionType.sell, "AAPL", 50, 9/10⟩).1.cash
      = 100000 + 175 * 50 := by
  simp only [execute_trade, findPosition, updateFirst, pyInt]
  norm_num [List.find?]

example :
    (execute_trade 175 ⟨100, []⟩ ⟨TransactionType.buy, "AAPL", 1000, 4/5⟩).2.2
      = none := by
  simp only [execute_trade, findPosition, updateFirst, pyInt]
  norm_num [List.find?, Int.floor_eq_iff]

/-! ### List helper lemmas about `findPosition`, `updateFirst` and filtering -/

theorem findPosition_mem {ps : List Position} {sym : String} {pos : Position}
    (h : findPosition ps sym = some pos) : pos ∈ ps ∧ pos.symbol = sym := by
  refine ⟨List.mem_of_find?_eq_some h, ?_⟩
  have := List.find?_some h
  simpa using this

theorem findPosition_eq_none {ps : List Position} {sym : String} :
    findPosition ps sym = none ↔ ∀ p ∈ ps, p.symbol ≠ sym := by
  simp [findPosition, List.find?_eq_none]

theorem findPosition_updateFirst (ps : List Position) (sym : String)
    (f : Position → Position) (hf : ∀ p, (f p).symbol = p.symbol) :
    findPosition (updateFirst ps sym f) sym = (findPosition ps sym).map f := by
  induction ps with
  | nil => simp [findPosition, updateFirst]
  | cons p rest ih =>
    by_cases h : p.symbol = sym
    · simp [findPosition, updateFirst, List.find?, h, hf]
    · have hb : (p.symbol == sym) = false := by simp [h]
      simp only [updateFirst, hb, if_false, findPosition, List.find?, hb]
      exact ih

theorem mem_updateFirst {ps : List Position} {sym : String} {pos : Position}
    (f : Position → Position) (hfind : findPosition ps sym = some pos) :
    ∀ p' ∈ updateFirst ps sym f, p' ∈ ps ∨ p' = f pos := by
  induction ps with
  | nil => simp [updateFirst]
  | cons p rest ih =>
    by_cases h : p.symbol = sym
    · have hb : (p.symbol == sym) = true := by simp [h]
      have hpos : pos = p := by
        simp only [findPosition, List.find?, hb] at hfind
        exact (Option.some.inj hfind).symm
      subst hpos
      simp only [updateFirst, hb, if_true]
      intro p' hp'
      rcases List.mem_cons.mp hp' with h1 | h2
      · exact Or.inr h1
      · exact Or.inl (List.mem_cons_of_mem _ h2)
    · have hb : (p.symbol == sym) = false := by simp [h]
      simp only [findPosition, List.find?, hb] at hfind
      simp only [updateFirst, hb, if_false]
      intro p' hp'
      rcases List.mem_cons.mp hp' with h1 | h2
      · exact Or.inl (h1 ▸ List.mem_cons_self _ _)
      · rcases ih hfind p' h2 with h3 | h4
        · exact Or.inl (List.mem_cons_of_mem _ h3)
        · exact Or.inr h4

theorem map_symbol_updateFirst (ps : List Position) (sym : String)
    (f : Position → Position) (hf : ∀ p, (f p).symbol = p.symbol) :
    (updateFirst ps sym f).map Position.symbol = ps.map Position.symbol := by
  induction ps with
  | nil => simp [updateFirst]
  | cons p rest ih =>
    by_cases h : p.symbol = sym
    · simp [updateFirst, h, hf]
    · have hb : (p.symbol == sym) = false := by simp [h]
      simp [updateFirst, hb, ih]

theorem sumMV_updateFirst {ps : List Position} {sym : String} {pos : Position}
    (f : Position → Position) (hfind : findPosition ps sym = some pos) :
    ((updateFirst ps sym f).map Position.market_value).sum
      = (ps.map Position.market_value).sum
        + ((f pos).market_value - pos.market_value) := by
  induction ps with
  | nil => simp [findPosition, List.find?] at hfind
  | cons p rest ih =>
    by_cases h : p.symbol = sym
    · have hb : (p.symbol == sym) = true := by simp [h]
      have hpos : pos = p := by
        simp only [findPosition, List.find?, hb] at hfind
        exact (Option.some.inj hfind).symm
      subst hpos
      simp only [updateFirst, hb, if_true, List.map_cons, List.sum_cons]
      ring
    · have hb : (p.symbol == sym) = false := by simp [h]
      simp only [findPosition, List.find?, hb] at hfind
      simp [updateFirst, hb, ih hfind]
      ring

theorem findPosition_append_single (ps : List Position) (sym : String)
    (q : Position) (hnone : findPosition ps sym = none) (hq : q.symbol = sym) :
    findPosition (ps ++ [q]) sym = some q := by
  induction ps with
  | nil => simp [findPosition, List.find?, hq]
  | cons p rest ih =>
    have h := (findPosition_eq_none.mp hnone) p (List.mem_cons_self _ _)
    have hb : (p.symbol == sym) = false := by simp [h]
    have hrest : findPosition rest sym = none := by
      simp only [findPosition, List.find?, hb] at hnone
      exact hnone
    simp only [List.cons_append, findPosition, List.find?, hb]
    exact ih hrest

theorem filter_ne_of_none {ps : List Position} {sym : String}
    (h : ∀ p ∈ ps, p.symbol ≠ sym) :
    ps.filter (fun p => p.symbol != sym) = ps := by
  induction ps with
  | nil => simp
  | cons p rest ih =>
    have h1 : p.symbol ≠ sym := h p (List.mem_cons_self _ _)
    have h2 : ∀ q ∈ rest, q.symbol ≠ sym := fun q hq => h q (List.mem_cons_of_mem _ hq)
    have hbne : (p.symbol != sym) = true := by simp [h1]
    simp [List.filter, hbne, ih h2]

theorem sumMV_filter_ne {ps : List Position} {sym : String} {pos : Position}
    (hnd : (ps.map Position.symbol).Nodup)
    (hfind : findPosition ps sym = some pos) :
    ((ps.filter (fun p => p.symbol != sym)).map Position.market_value).sum
      = (ps.map Position.market_value).sum - pos.market_value := by
  induction ps with
  | nil => simp [findPosition, List.find?] at hfind
  | cons p rest ih =>
    by_cases h : p.symbol = sym
    · have hb : (p.symbol == sym) = true := by simp [h]
      have hpos : pos = p := by
        simp only [findPosition, List.find?, hb] at hfind
        exact (Option.some.inj hfind).symm
      subst hpos
      have hrest : ∀ q ∈ rest, q.symbol ≠ sym := by
        intro q hq hqs
        have : pos.symbol ∉ rest.map Position.symbol := (List.nodup_cons.mp hnd).1
        exact this (by rw [h, ← hqs]; exact List.mem_map_of_mem _ hq)
      have hbne : (pos.symbol != sym) = false := by simp [h]
      simp only [List.filter, hbne]
      rw [filter_ne_of_none hrest]
      simp only [List.map_cons, List.sum_cons]
      ring
    · have hb : (p.symbol == sym) = false := by simp [h]
      simp only [findPosition, List.find?, hb] at hfind
      have hbne : (p.symbol != sym) = true := by simp [h]
      simp only [List.filter, hbne, List.map_cons, List.sum_cons,
        ih (List.nodup_cons.mp hnd).2 hfind]
      ring

theorem findPosition_filter_ne (ps : List Position) (sym : String) :
    findPosition (ps.filter (fun p => p.symbol != sym)) sym = none := by
  rw [findPosition_eq_none]
  intro p hp
  have := (List.mem_filter.mp hp).2
  simpa using this

/-! ### Branch equations for `execute_trade` -/

/-- Position list produced by a successful buy of `s` shares at `price`
(weighted-average restatement of the buy branch of `_execute_trade`). -/
def buyPositions (price : ℚ) (pf : Portfolio) (sym : String) (s : ℚ) :
    List Position :=
  match findPosition pf.positions sym with
  | some _ =>
    updateFirst pf.positions sym (fun p =>
      { p with
          avg_cost := (p.shares * p.avg_cost + price * s) / (p.shares + s),
          shares := p.shares + s,
          current_price := price })
  | none => pf.positions ++ [⟨sym, s, price, price⟩]

/-- Position list produced by a successful sell of `sts` shares
(restatement of the sell branch of `_execute_trade`). -/
def sellPositions (pf : Portfolio) (sym : String) (sts : ℚ)
    (existing : Position) : List Position :=
  let positions₁ := updateFirst pf.positions sym (fun p =>
    { p with shares := p.shares - sts })
  if existing.shares - sts ≤ 0 then
    positions₁.filter (fun p => p.symbol != sym)
  else positions₁

theorem execute_trade_buy_eq (price : ℚ) (pf : Portfolio) (sym : String)
    (shs conf : ℚ) :
    execute_trade price pf ⟨TransactionType.buy, sym, shs, conf⟩ =
      if pf.cash < price * shs then
        if pyInt (pf.cash / price) ≤ 0 then
          (pf, ⟨TransactionType.buy, sym, shs, conf⟩, none)
        else
          (⟨pf.cash - price * ((pyInt (pf.cash / price) : ℤ) : ℚ),
             buyPositions price pf sym ((pyInt (pf.cash / price) : ℤ) : ℚ)⟩,
           ⟨TransactionType.buy, sym, ((pyInt (pf.cash / price) : ℤ) : ℚ), conf⟩,
           some ⟨TransactionType.buy, sym, ((pyInt (pf.cash / price) : ℤ) : ℚ), price⟩)
      else
        (⟨pf.cash - price * shs, buyPositions price pf sym shs⟩,
         ⟨TransactionType.buy, sym, shs, conf⟩,
         some ⟨TransactionType.buy, sym, shs, price⟩) := by
  simp only [execute_trade, buyPositions]
  split_ifs <;> rfl

theorem execute_trade_sell_eq (price : ℚ) (pf : Portfolio) (sym : String)
    (shs conf : ℚ) :
    execute_trade price pf ⟨TransactionType.sell, sym, shs, conf⟩ =
      match findPosition pf.positions sym with
      | none => (pf, ⟨TransactionType.sell, sym, shs, conf⟩, none)
      | some existing =>
        (⟨pf.cash + min shs existing.shares * price,
           sellPositions pf sym (min shs existing.shares) existing⟩,
         ⟨TransactionType.sell, sym, shs, conf⟩,
         some ⟨TransactionType.sell, sym, shs, price⟩) := by
  simp only [execute_trade, sellPositions]

/-! ### C1: buy clamping -/

/-- C1.  For a buy whose cost `price * requested_shares` exceeds the
portfolio's cash (price positive, cash nonnegative): the executed share count
is clamped to `⌊cash / price⌋`; if that floor is 0 the trade is declined with
no `Transaction` and no mutation; otherwise the persisted `Transaction`
carries the clamped share count, the post-trade cash is
`cash - price * ⌊cash / price⌋ ≥ 0`, and the executed cost is at most the
pre-trade cash. -/
theorem C1_buy_clamp (md : String → Option ℚ) (pf : Portfolio)
    (rec : TradeRecommendation) (price : ℚ)
    (hact : rec.action = TransactionType.buy)
    (hmd : md rec.symbol = some price)
    (hprice : 0 < price) (hcash : 0 ≤ pf.cash)
    (hexceed : pf.cash < price * rec.shares) :
    (⌊pf.cash / price⌋ = 0 → execute_trade_md md pf rec = (pf, rec, none)) ∧
    (0 < ⌊pf.cash / price⌋ →
      (execute_trade_md md pf rec).2.2 =
        some ⟨TransactionType.buy, rec.symbol, ((⌊pf.cash / price⌋ : ℤ) : ℚ), price⟩ ∧
      (execute_trade_md md pf rec).1.cash
        = pf.cash - price * ((⌊pf.cash / price⌋ : ℤ) : ℚ) ∧
      0 ≤ (execute_trade_md md pf rec).1.cash ∧
      price * ((⌊pf.cash / price⌋ : ℤ) : ℚ) ≤ pf.cash) := by
  obtain ⟨act, sym, shs, conf⟩ := rec
  simp only at hact
  subst hact
  simp only at hexceed
  have hq : (0:ℚ) ≤ pf.cash / price := div_nonneg hcash hprice.le
  have hpy : pyInt (pf.cash / price) = ⌊pf.cash / price⌋ := by simp [pyInt, hq]
  have hfl : price * ((⌊pf.cash / price⌋ : ℤ) : ℚ) ≤ pf.cash := by
    have h1 : ((⌊pf.cash / price⌋ : ℤ) : ℚ) ≤ pf.cash / price := Int.floor_le _
    calc price * ((⌊pf.cash / price⌋ : ℤ) : ℚ) ≤ price * (pf.cash / price) :=
          mul_le_mul_of_nonneg_left h1 hprice.le
      _ = pf.cash := by field_simp
  constructor
  · intro h0
    simp only [execute_trade_md, hmd, execute_trade, if_pos hexceed, hpy, h0]
    norm_num
  · intro hpos
    have hne : ¬ (⌊pf.cash / price⌋ ≤ 0) := not_le.mpr hpos
    simp only [execute_trade_md, hmd, execute_trade, if_pos hexceed, hpy, if_neg hne]
    refine ⟨trivial, trivial, ?_, hfl⟩
    linarith

/-- C1 witness: cash 100, price 30, requested 10 shares ⇒ 3 shares execute. -/
theorem C1_buy_clamp_witness :
    (0:ℚ) < 30 ∧ (0:ℚ) ≤ 100 ∧ (100:ℚ) < 30 * 10 ∧ (0:ℤ) < ⌊(100:ℚ) / 30⌋ ∧
    (execute_trade_md (fun _ => some 30) ⟨100, []⟩
        ⟨TransactionType.buy, "AAPL", 10, 4/5⟩).2.2 =
      some ⟨TransactionType.buy, "AAPL", ((⌊(100:ℚ) / 30⌋ : ℤ) : ℚ), 30⟩ := by
  have hfloor : (0:ℤ) < ⌊(100:ℚ) / 30⌋ := by norm_num
  refine ⟨by norm_num, by norm_num, by norm_num, hfloor, ?_⟩
  exact ((C1_buy_clamp (fun _ => some 30) ⟨100, []⟩
      ⟨TransactionType.buy, "AAPL", 10, 4/5⟩ 30 rfl rfl (by norm_num) (by norm_num)
      (by norm_num)).2 hfloor).1

/-! ### C2: weighted-average cost on buys -/

theorem buyPositions_find_some {pf : Portfolio} {sym : String} {pos : Position}
    (price s : ℚ) (hfind : findPosition pf.positions sym = some pos) :
    findPosition (buyPositions price pf sym s) sym =
      some { pos with
        avg_cost := (pos.shares * pos.avg_cost + price * s) / (pos.shares + s),
        shares := pos.shares + s,
        current_price := price } := by
  simp only [buyPositions, hfind]
  rw [findPosition_updateFirst pf.positions sym
      (fun p =>
        { p with
            avg_cost := (p.shares * p.avg_cost + price * s) / (p.shares + s),
            shares := p.shares + s,
            current_price := price })
      (fun p => rfl), hfind]
  rfl

theorem buyPositions_find_none {pf : Portfolio} {sym : String}
    (price s : ℚ) (hnone : findPosition pf.positions sym = none) :
    findPosition (buyPositions price pf sym s) sym = some ⟨sym, s, price, price⟩ := by
  simp only [buyPositions, hnone]
  exact findPosition_append_single _ _ _ hnone rfl

/-- C2.  For a successful buy: if a position already existed (old shares
positive), the post-trade position's average cost is
`(old_shares*old_avg + actual_cost)/(old_shares+actual_shares)` where
`actual_shares` is the executed (possibly clamped) share count recorded in the
Transaction and `actual_cost = price * actual_shares`; if no position existed,
the new position's average cost is the execution price. -/
theorem C2_buy_avg_cost (md : String → Option ℚ) (pf : Portfolio)
    (rec : TradeRecommendation) (price : ℚ) (t : Transaction)
    (hact : rec.action = TransactionType.buy)
    (hmd : md rec.symbol = some price)
    (ht : (execute_trade_md md pf rec).2.2 = some t) :
    (∀ pos, findPosition pf.positions rec.symbol = some pos → 0 < pos.shares →
      ∃ pos',
        findPosition (execute_trade_md md pf rec).1.positions rec.symbol = some pos' ∧
        pos'.shares = pos.shares + t.shares ∧
        pos'.avg_cost
          = (pos.shares * pos.avg_cost + price * t.shares) / (pos.shares + t.shares)) ∧
    (findPosition pf.positions rec.symbol = none →
      ∃ pos',
        findPosition (execute_trade_md md pf rec).1.positions rec.symbol = some pos' ∧
        pos'.shares = t.shares ∧ pos'.avg_cost = price) := by
  obtain ⟨act, sym, shs, conf⟩ := rec
  simp only at hact
  subst hact
  simp only [execute_trade_md, hmd] at ht ⊢
  rw [execute_trade_buy_eq] at ht ⊢
  by_cases hex : pf.cash < price * shs
  · rw [if_pos hex] at ht ⊢
    by_cases haff : pyInt (pf.cash / price) ≤ 0
    · rw [if_pos haff] at ht
      exact absurd ht (by simp)
    · rw [if_neg haff] at ht ⊢
      have ht' : (⟨TransactionType.buy, sym, ((pyInt (pf.cash / price) : ℤ) : ℚ),
          price⟩ : Transaction) = t := Option.some.inj ht
      subst ht'
      constructor
      · intro pos hfind _hpos
        exact ⟨_, buyPositions_find_some price _ hfind, rfl, rfl⟩
      · intro hnone
        exact ⟨_, buyPositions_find_none price _ hnone, rfl, rfl⟩
  · rw [if_neg hex] at ht ⊢
    have ht' : (⟨TransactionType.buy, sym, shs, price⟩ : Transaction) = t :=
      Option.some.inj ht
    subst ht'
    constructor
    · intro pos hfind _hpos
      exact ⟨_, buyPositions_find_some price _ hfind, rfl, rfl⟩
    · intro hnone
      exact ⟨_, buyPositions_find_none price _ hnone, rfl, rfl⟩

/-- C2 witness: buying 10 more shares at 150 into a 10-share position with
average cost 100 yields average cost `(10*100 + 150*10)/(10+10) = 125`. -/
theorem C2_buy_avg_cost_witness :
    (execute_trade_md (fun _ => some 150) ⟨100000, [⟨"AAPL", 10, 100, 150⟩]⟩
        ⟨TransactionType.buy, "AAPL", 10, 4/5⟩).2.2
      = some ⟨TransactionType.buy, "AAPL", 10, 150⟩ ∧
    ∃ pos',
      findPosition (execute_trade_md (fun _ => some 150)
          ⟨100000, [⟨"AAPL", 10, 100, 150⟩]⟩
          ⟨TransactionType.buy, "AAPL", 10, 4/5⟩).1.positions "AAPL" = some pos' ∧
      pos'.shares = 10 + 10 ∧
      pos'.avg_cost = ((10:ℚ) * 100 + 150 * 10) / (10 + 10) := by
  have ht : (execute_trade_md (fun _ => some 150) ⟨100000, [⟨"AAPL", 10, 100, 150⟩]⟩
      ⟨TransactionType.buy, "AAPL", 10, 4/5⟩).2.2
      = some ⟨TransactionType.buy, "AAPL", 10, 150⟩ := by
    simp only [execute_trade_md, execute_trade, findPosition, updateFirst, pyInt]
    norm_num [List.find?]
  refine ⟨ht, ?_⟩
  have := (C2_buy_avg_cost (fun _ => some 150) ⟨100000, [⟨"AAPL", 10, 100, 150⟩]⟩
      ⟨TransactionType.buy, "AAPL", 10, 4/5⟩ 150 ⟨TransactionType.buy, "AAPL", 10, 150⟩
      rfl rfl ht).1 ⟨"AAPL", 10, 100, 150⟩ rfl (by norm_num)
  exact this

/-! ### C3: sell semantics -/

theorem sellPositions_find_remove {pf : Portfolio} {sym : String}
    {existing : Position} (sts : ℚ) (hle : existing.shares - sts ≤ 0) :
    findPosition (sellPositions pf sym sts existing) sym = none := by
  simp only [sellPositions, if_pos hle]
  exact findPosition_filter_ne _ _

theorem sellPositions_find_keep {pf : Portfolio} {sym : String}
    {existing : Position} (sts : ℚ)
    (hfind : findPosition pf.positions sym = some existing)
    (hgt : ¬ existing.shares - sts ≤ 0) :
    findPosition (sellPositions pf sym sts existing) sym =
      some { existing with shares := existing.shares - sts } := by
  simp only [sellPositions, if_neg hgt]
  rw [findPosition_updateFirst pf.positions sym
      (fun p => { p with shares := p.shares - sts }) (fun p => rfl), hfind]
  rfl

/-- C3.  For a sell: with no existing position the trade is declined with no
mutation; otherwise the executed trade sells `min(requested, held)` shares
(cash increases by exactly that times the price, never overselling), the
resulting held shares are nonnegative, and the position is removed from the
portfolio iff the resulting shares equal 0. -/
theorem C3_sell_spec (md : String → Option ℚ) (pf : Portfolio)
    (rec : TradeRecommendation) (price : ℚ)
    (hact : rec.action = TransactionType.sell)
    (hmd : md rec.symbol = some price) :
    (findPosition pf.positions rec.symbol = none →
      execute_trade_md md pf rec = (pf, rec, none)) ∧
    (∀ pos, findPosition pf.positions rec.symbol = some pos →
      (∃ t, (execute_trade_md md pf rec).2.2 = some t) ∧
      (execute_trade_md md pf rec).1.cash
        = pf.cash + min rec.shares pos.shares * price ∧
      0 ≤ pos.shares - min rec.shares pos.shares ∧
      (findPosition (execute_trade_md md pf rec).1.positions rec.symbol = none ↔
        pos.shares - min rec.shares pos.shares = 0) ∧
      (pos.shares - min rec.shares pos.shares ≠ 0 →
        ∃ pos',
          findPosition (execute_trade_md md pf rec).1.positions rec.symbol = some pos' ∧
          pos'.shares = pos.shares - min rec.shares pos.shares)) := by
  obtain ⟨act, sym, shs, conf⟩ := rec
  simp only at hact
  subst hact
  simp only [execute_trade_md, hmd]
  rw [execute_trade_sell_eq]
  constructor
  · intro hnone
    rw [hnone]
  · intro pos hfind
    rw [hfind]
    have hnn : 0 ≤ pos.shares - min shs pos.shares :=
      sub_nonneg.mpr (min_le_right _ _)
    refine ⟨⟨_, rfl⟩, rfl, hnn, ?_, ?_⟩
    · by_cases hr : pos.shares - min shs pos.shares ≤ 0
      · have hz : pos.shares - min shs pos.shares = 0 := le_antisymm hr hnn
        simp only [sellPositions_find_remove _ hr]
        exact ⟨fun _ => hz, fun _ => trivial⟩
      · simp only [sellPositions_find_keep _ hfind hr]
        constructor
        · intro h
          exact absurd h (by simp)
        · intro hz
          exact absurd (hz ▸ le_refl (0:ℚ)) hr
    · intro hne
      have hr : ¬ pos.shares - min shs pos.shares ≤ 0 :=
        fun h => hne (le_antisymm h hnn)
      exact ⟨_, sellPositions_find_keep _ hfind hr, rfl⟩

/-- C3 witness: selling 50 of 100 held shares at 175 leaves 50 shares and
adds 8750 to cash; the position survives. -/
theorem C3_sell_spec_witness :
    (execute_trade_md (fun _ => some 175) ⟨100000, [⟨"AAPL", 100, 150, 175⟩]⟩
        ⟨TransactionType.sell, "AAPL", 50, 9/10⟩).1.cash
      = 100000 + min (50:ℚ) 100 * 175 ∧
    (0:ℚ) ≤ 100 - min (50:ℚ) 100 := by
  have h := (C3_sell_spec (fun _ => some 175) ⟨100000, [⟨"AAPL", 100, 150, 175⟩]⟩
      ⟨TransactionType.sell, "AAPL", 50, 9/10⟩ 175 rfl rfl).2
      ⟨"AAPL", 100, 150, 175⟩ rfl
  exact ⟨h.2.1, h.2.2.1⟩

/-! ### C4: Transaction share count on clamped sells -/

/-- C4 (failing input).  Holding 5 shares, a sell request for 10 shares at
price 100 sells only 5 shares (cash rises by 500), yet the persisted
`Transaction` records `shares = 10` — the requested amount, not the 5
actually sold: the buy branch writes the clamped count back into
`recommendation.shares` before building the Transaction, the sell branch
does not. -/
theorem C4_sell_txn_records_requested :
    (execute_trade 100 ⟨1000, [⟨"AAPL", 5, 80, 100⟩]⟩
        ⟨TransactionType.sell, "AAPL", 10, 9/10⟩).2.2
      = some ⟨TransactionType.sell, "AAPL", 10, 100⟩ ∧
    (execute_trade 100 ⟨1000, [⟨"AAPL", 5, 80, 100⟩]⟩
        ⟨TransactionType.sell, "AAPL", 10, 9/10⟩).1.cash = 1000 + 5 * 100 ∧
    min (10:ℚ) 5 = 5 ∧ (10:ℚ) ≠ 5 := by
  refine ⟨?_, ?_, by norm_num, by norm_num⟩ <;>
  · simp only [execute_trade, findPosition, updateFirst, pyInt]
    norm_num [List.find?]

/-! ### C5: declines have no side effects -/

/-- C5.  A declined execution (equivalently: fundamentals unavailable, a buy
whose affordable floor is ≤ 0, or a sell with no existing position) returns
the portfolio completely unchanged — in particular `total_value` is
unchanged — and produces no `Transaction`. -/
theorem C5_decline_no_mutation (md : String → Option ℚ) (pf : Portfolio)
    (rec : TradeRecommendation) :
    ((execute_trade_md md pf rec).2.2 = none →
      execute_trade_md md pf rec = (pf, rec, none) ∧
      (execute_trade_md md pf rec).1.total_value = pf.total_value) ∧
    ((execute_trade_md md pf rec).2.2 = none ↔
      md rec.symbol = none ∨
      (∃ price, md rec.symbol = some price ∧ rec.action = TransactionType.buy ∧
        pf.cash < price * rec.shares ∧ pyInt (pf.cash / price) ≤ 0) ∨
      (rec.action = TransactionType.sell ∧
        findPosition pf.positions rec.symbol = none)) := by
  obtain ⟨act, sym, shs, conf⟩ := rec
  cases hmd : md sym with
  | none =>
    simp only [execute_trade_md, hmd]
    refine ⟨fun _ => ⟨?_, ?_⟩, by simp⟩ <;> trivial
  | some price =>
    simp only [execute_trade_md, hmd]
    cases act with
    | buy =>
      rw [execute_trade_buy_eq]
      by_cases hex : pf.cash < price * shs
      · rw [if_pos hex]
        by_cases haff : pyInt (pf.cash / price) ≤ 0
        · rw [if_pos haff]
          refine ⟨fun _ => ⟨rfl, rfl⟩, ?_⟩
          constructor
          · intro _
            exact Or.inr (Or.inl ⟨price, rfl, rfl, hex, haff⟩)
          · intro _
            rfl
        · rw [if_neg haff]
          refine ⟨fun h => absurd h (by simp), ?_⟩
          constructor
          · intro h
            exact absurd h (by simp)
          · rintro (h | ⟨p, hp, -, -, haff'⟩ | ⟨h, -⟩)
            · cases h
            · rw [← Option.some.inj hp] at haff'
              exact absurd haff' haff
            · cases h
      · rw [if_neg hex]
        refine ⟨fun h => absurd h (by simp), ?_⟩
        constructor
        · intro h
          exact absurd h (by simp)
        · rintro (h | ⟨p, hp, -, hex', -⟩ | ⟨h, -⟩)
          · cases h
          · rw [← Option.some.inj hp] at hex'
            exact absurd hex' hex
          · cases h
    | sell =>
      rw [execute_trade_sell_eq]
      cases hfind : findPosition pf.positions sym with
      | none =>
        refine ⟨fun _ => ⟨rfl, rfl⟩, ?_⟩
        exact ⟨fun _ => Or.inr (Or.inr ⟨rfl, rfl⟩), fun _ => rfl⟩
      | some pos =>
        refine ⟨fun h => absurd h (by simp), ?_⟩
        constructor
        · intro h
          exact absurd h (by simp)
        · rintro (h | ⟨p, -, h, -, -⟩ | ⟨-, hfind'⟩)
          · cases h
          · cases h
          · cases hfind'
    | dividend =>
      refine ⟨fun h => absurd h (by simp [execute_trade]), ?_⟩
      constructor
      · intro h
        exact absurd h (by simp [execute_trade])
      · rintro (h | ⟨p, -, h, -, -⟩ | ⟨h, -⟩)
        · cases h
        · cases h
        · cases h

/-- C5 witness: an unavailable fundamentals lookup declines with zero side
effects. -/
theorem C5_decline_no_mutation_witness :
    (execute_trade_md (fun _ => none) ⟨500, []⟩
        ⟨TransactionType.buy, "MSFT", 3, 4/5⟩).2.2 = none ∧
    execute_trade_md (fun _ => none) ⟨500, []⟩ ⟨TransactionType.buy, "MSFT", 3, 4/5⟩
      = (⟨500, []⟩, ⟨TransactionType.buy, "MSFT", 3, 4/5⟩, none) :=
  ⟨rfl, ((C5_decline_no_mutation (fun _ => none) ⟨500, []⟩
      ⟨TransactionType.buy, "MSFT", 3, 4/5⟩).1 rfl).1⟩

/-! ### C6: confidence gate in the run loop -/

theorem execute_trade_md_confidence (md : String → Option ℚ) (pf : Portfolio)
    (rec : TradeRecommendation) :
    (execute_trade_md md pf rec).2.1.confidence = rec.confidence := by
  obtain ⟨act, sym, shs, conf⟩ := rec
  cases hmd : md sym with
  | none => simp [execute_trade_md, hmd]
  | some price =>
    simp only [execute_trade_md, hmd]
    cases act with
    | buy =>
      rw [execute_trade_buy_eq]
      split_ifs <;> rfl
    | sell =>
      rw [execute_trade_sell_eq]
      cases findPosition pf.positions sym <;> rfl
    | dividend => rfl

/-- Outcome of the run loop for one recommendation: filtered out by the
confidence gate, or passed to `_execute_trade` (which may still decline). -/
inductive RunStep where
  | filtered (r : TradeRecommendation)
  | attempted (r : TradeRecommendation) (txn : Option Transaction)
deriving DecidableEq, Repr

def RunStep.recOf : RunStep → TradeRecommendation
  | RunStep.filtered r => r
  | RunStep.attempted r _ => r

def RunStep.txnOf : RunStep → Option Transaction
  | RunStep.filtered _ => none
  | RunStep.attempted _ t => t

/-- The EXECUTE phase of `BaseAgent.run` (`if rec.confidence >= 0.7:
txn = self._execute_trade(portfolio, rec)`): recommendations are processed in
order against the evolving portfolio; only those with confidence ≥ 0.7 reach
`_execute_trade`. -/
def run_execute (md : String → Option ℚ) :
    Portfolio → List TradeRecommendation → Portfolio × List RunStep
  | pf, [] => (pf, [])
  | pf, r :: rest =>
    if 7/10 ≤ r.confidence then
      let out := execute_trade_md md pf r
      let next := run_execute md out.1 rest
      (next.1, RunStep.attempted out.2.1 out.2.2 :: next.2)
    else
      let next := run_execute md pf rest
      (next.1, RunStep.filtered r :: next.2)

/-- `AgentRun.recommendations`: the run record lists every recommendation
(`[r.to_dict() for r in recommendations]`), executed or not. -/
def run_recommendations (steps : List RunStep) : List TradeRecommendation :=
  steps.map RunStep.recOf

/-- C6.  In a run cycle, a recommendation is passed to the execution engine
iff its confidence is ≥ 0.7: positionally, filtered entries are exactly the
low-confidence recommendations (recorded unchanged, with no transaction), any
attempted entry stems from confidence ≥ 0.7, and every low-confidence
recommendation still appears in the persisted run's recommendation list. -/
theorem C6_confidence_gate (md : String → Option ℚ) (pf : Portfolio)
    (recs : List TradeRecommendation) :
    (run_execute md pf recs).2.length = recs.length ∧
    (∀ pr ∈ recs.zip (run_execute md pf recs).2,
      (pr.1.confidence < 7/10 →
        pr.2 = RunStep.filtered pr.1 ∧ RunStep.txnOf pr.2 = none) ∧
      (7/10 ≤ pr.1.confidence → ∃ r t, pr.2 = RunStep.attempted r t)) ∧
    (∀ s ∈ (run_execute md pf recs).2, ∀ r t, s = RunStep.attempted r t →
      7/10 ≤ r.confidence) ∧
    (∀ r ∈ recs, r.confidence < 7/10 →
      r ∈ run_recommendations (run_execute md pf recs).2) := by
  induction recs generalizing pf with
  | nil => simp [run_execute, run_recommendations]
  | cons r rest ih =>
    by_cases hc : 7/10 ≤ r.confidence
    · simp only [run_execute, if_pos hc]
      obtain ⟨ih1, ih2, ih3, ih4⟩ := ih (execute_trade_md md pf r).1
      refine ⟨by simpa using ih1, ?_, ?_, ?_⟩
      · intro pr hpr
        rw [List.zip_cons_cons, List.mem_cons] at hpr
        rcases hpr with hhead | htail
        · subst hhead
          exact ⟨fun hlow => absurd hc (not_le.mpr hlow), fun _ => ⟨_, _, rfl⟩⟩
        · exact ih2 pr htail
      · intro s hs r' t hst
        rcases List.mem_cons.mp hs with hhead | htail
        · rw [hst] at hhead
          have hr' : r' = (execute_trade_md md pf r).2.1 :=
            ((RunStep.attempted.injEq _ _ _ _).mp hhead.symm).1.symm
          rw [hr', execute_trade_md_confidence]
          exact hc
        · exact ih3 s htail r' t hst
      · intro r' hr' hlow
        rcases List.mem_cons.mp hr' with hhead | htail
        · subst hhead
          exact absurd hc (not_le.mpr hlow)
        · simp only [run_recommendations, List.map_cons, List.mem_cons]
          exact Or.inr (by simpa [run_recommendations] using ih4 r' htail hlow)
    · simp only [run_execute, if_neg hc]
      obtain ⟨ih1, ih2, ih3, ih4⟩ := ih pf
      refine ⟨by simpa using ih1, ?_, ?_, ?_⟩
      · intro pr hpr
        rw [List.zip_cons_cons, List.mem_cons] at hpr
        rcases hpr with hhead | htail
        · subst hhead
          exact ⟨fun _ => ⟨rfl, rfl⟩, fun hhigh => absurd hhigh hc⟩
        · exact ih2 pr htail
      · intro s hs r' t hst
        rcases List.mem_cons.mp hs with hhead | htail
        · rw [hst] at hhead
          cases hhead
        · exact ih3 s htail r' t hst
      · intro r' hr' hlow
        rcases List.mem_cons.mp hr' with hhead | htail
        · subst hhead
          simp [run_recommendations, RunStep.recOf]
        · simp only [run_recommendations, List.map_cons, List.mem_cons]
          exact Or.inr (by simpa [run_recommendations] using ih4 r' htail hlow)

/-- C6 witness: with confidences 0.8 and 0.5, the first recommendation is
attempted and the second is filtered yet still recorded. -/
theorem C6_confidence_gate_witness :
    ((1:ℚ)/2 < 7/10) ∧
    RunStep.filtered ⟨TransactionType.buy, "B", 1, 1/2⟩
      = RunStep.filtered ⟨TransactionType.buy, "B", 1, 1/2⟩ ∧
    RunStep.txnOf (RunStep.filtered ⟨TransactionType.buy, "B", 1, 1/2⟩) = none := by
  have hsteps : (run_execute (fun _ => none) ⟨1000, []⟩
      [⟨TransactionType.buy, "A", 1, 4/5⟩, ⟨TransactionType.buy, "B", 1, 1/2⟩]).2
      = [RunStep.attempted ⟨TransactionType.buy, "A", 1, 4/5⟩ none,
         RunStep.filtered ⟨TransactionType.buy, "B", 1, 1/2⟩] := by
    norm_num [run_execute, execute_trade_md]
  have hmem : ((⟨TransactionType.buy, "B", 1, 1/2⟩ : TradeRecommendation),
      RunStep.filtered ⟨TransactionType.buy, "B", 1, 1/2⟩) ∈
      ([⟨TransactionType.buy, "A", 1, 4/5⟩,
        ⟨TransactionType.buy, "B", 1, 1/2⟩] : List TradeRecommendation).zip
        (run_execute (fun _ => none) ⟨1000, []⟩
          [⟨TransactionType.buy, "A", 1, 4/5⟩, ⟨TransactionType.buy, "B", 1, 1/2⟩]).2 := by
    rw [hsteps]
    simp
  refine ⟨by norm_num, ?_⟩
  exact ((C6_confidence_gate (fun _ => none) ⟨1000, []⟩
      [⟨TransactionType.buy, "A", 1, 4/5⟩, ⟨TransactionType.buy, "B", 1, 1/2⟩]).2.1
      _ hmem).1 (by norm_num)

/-! ### C7: portfolio invariant -/

/-- The portfolio invariant asserted by the spec: nonnegative cash, at most
one position per security, and no position with zero shares (the data model
bounds shares below by 0, so held shares are strictly positive). -/
def PortfolioWF (pf : Portfolio) : Prop :=
  0 ≤ pf.cash ∧ (pf.positions.map Position.symbol).Nodup ∧
    ∀ p ∈ pf.positions, 0 < p.shares

instance : DecidablePred PortfolioWF := fun pf => by
  unfold PortfolioWF
  infer_instance

theorem buyPositions_wf {pf : Portfolio} {sym : String} (price s : ℚ)
    (hnd : (pf.positions.map Position.symbol).Nodup)
    (hpos : ∀ p ∈ pf.positions, 0 < p.shares) (hs : 0 < s) :
    ((buyPositions price pf sym s).map Position.symbol).Nodup ∧
    ∀ p ∈ buyPositions price pf sym s, 0 < p.shares := by
  cases hfind : findPosition pf.positions sym with
  | some pos =>
    have hmem := findPosition_mem hfind
    constructor
    · simp only [buyPositions, hfind]
      rw [map_symbol_updateFirst pf.positions sym
          (fun p =>
            { p with
                avg_cost := (p.shares * p.avg_cost + price * s) / (p.shares + s),
                shares := p.shares + s,
                current_price := price })
          (fun p => rfl)]
      exact hnd
    · intro p hp
      simp only [buyPositions, hfind] at hp
      rcases mem_updateFirst _ hfind p hp with h1 | h2
      · exact hpos p h1
      · rw [h2]
        have := hpos pos hmem.1
        simp only
        linarith
  | none =>
    have hns : sym ∉ pf.positions.map Position.symbol := by
      intro hmem
      rcases List.mem_map.mp hmem with ⟨p, hp, hps⟩
      exact (findPosition_eq_none.mp hfind) p hp hps
    constructor
    · simp only [buyPositions, hfind, List.map_append, List.map_cons, List.map_nil]
      rw [List.nodup_append]
      exact ⟨hnd, List.nodup_singleton _, by simpa using hns⟩
    · intro p hp
      simp only [buyPositions, hfind] at hp
      rcases List.mem_append.mp hp with h1 | h2
      · exact hpos p h1
      · rw [List.mem_singleton.mp h2]
        exact hs

theorem sellPositions_wf {pf : Portfolio} {sym : String} {existing : Position}
    (sts : ℚ) (hfind : findPosition pf.positions sym = some existing)
    (hnd : (pf.positions.map Position.symbol).Nodup)
    (hpos : ∀ p ∈ pf.positions, 0 < p.shares) :
    ((sellPositions pf sym sts existing).map Position.symbol).Nodup ∧
    ∀ p ∈ sellPositions pf sym sts existing, 0 < p.shares := by
  have hnd₁ : ((updateFirst pf.positions sym
      (fun p => { p with shares := p.shares - sts })).map Position.symbol).Nodup := by
    rw [map_symbol_updateFirst pf.positions sym
        (fun p => { p with shares := p.shares - sts }) (fun p => rfl)]
    exact hnd
  by_cases hle : existing.shares - sts ≤ 0
  · simp only [sellPositions, if_pos hle]
    constructor
    · exact List.Nodup.sublist
        ((List.filter_sublist _).map Position.symbol) hnd₁
    · intro p hp
      have hp₁ := List.mem_filter.mp hp
      have hps : p.symbol ≠ sym := by simpa using hp₁.2
      rcases mem_updateFirst _ hfind p hp₁.1 with h1 | h2
      · exact hpos p h1
      · exact absurd ((congrArg Position.symbol h2).trans
          (findPosition_mem hfind).2) hps
  · simp only [sellPositions, if_neg hle]
    refine ⟨hnd₁, ?_⟩
    intro p hp
    rcases mem_updateFirst _ hfind p hp with h1 | h2
    · exact hpos p h1
    · rw [h2]
      simp only
      linarith

/-- C7 counterexample: the claim quantifies over every call to the execution
engine, but a buy recommendation for 0 shares of an unheld security is not
declined (its cost 0 never exceeds cash): it executes and appends a Position
with `shares == 0`, violating the stated invariant. -/
theorem C7_invariant_cex :
    PortfolioWF ⟨100, []⟩ ∧
    (execute_trade 10 ⟨100, []⟩
        ⟨TransactionType.buy, "VTI", 0, 9/10⟩).2.2.isSome = true ∧
    ¬ PortfolioWF (execute_trade 10 ⟨100, []⟩
        ⟨TransactionType.buy, "VTI", 0, 9/10⟩).1 := by
  have hpf : (execute_trade 10 ⟨100, []⟩
      ⟨TransactionType.buy, "VTI", 0, 9/10⟩).1
      = ⟨100, [⟨"VTI", 0, 10, 10⟩]⟩ := by
    simp only [execute_trade, findPosition, updateFirst, pyInt]
    norm_num [List.find?]
  refine ⟨?_, ?_, ?_⟩
  · simp [PortfolioWF]
  · simp only [execute_trade, findPosition, updateFirst, pyInt]
    norm_num [List.find?]
  · rw [hpf]
    simp [PortfolioWF]

/-- C7 (amended).  Every call to the execution engine with a recommendation
for a positive number of shares and a nonnegative quoted price preserves the
portfolio invariant (cash ≥ 0, unique symbols, no zero-share position). -/
theorem C7_invariant_preserved (md : String → Option ℚ) (pf : Portfolio)
    (rec : TradeRecommendation)
    (hwf : PortfolioWF pf) (hshares : 0 < rec.shares)
    (hprice : ∀ p, md rec.symbol = some p → 0 ≤ p) :
    PortfolioWF (execute_trade_md md pf rec).1 := by
  obtain ⟨hcash, hnd, hpos⟩ := hwf
  obtain ⟨act, sym, shs, conf⟩ := rec
  simp only at hshares
  cases hmd : md sym with
  | none =>
    simp only [execute_trade_md, hmd]
    exact ⟨hcash, hnd, hpos⟩
  | some price =>
    have hp : 0 ≤ price := hprice price hmd
    simp only [execute_trade_md, hmd]
    cases act with
    | buy =>
      rw [execute_trade_buy_eq]
      by_cases hex : pf.cash < price * shs
      · rw [if_pos hex]
        by_cases haff : pyInt (pf.cash / price) ≤ 0
        · rw [if_pos haff]
          exact ⟨hcash, hnd, hpos⟩
        · rw [if_neg haff]
          have hppos : 0 < price := by
            have h1 : 0 < price * shs := lt_of_le_of_lt hcash hex
            rcases mul_pos_iff.mp h1 with ⟨h2, _⟩ | ⟨_, h3⟩
            · exact h2
            · exact absurd hshares (not_lt.mpr h3.le)
          have hq : (0:ℚ) ≤ pf.cash / price := div_nonneg hcash hppos.le
          have hpy : pyInt (pf.cash / price) = ⌊pf.cash / price⌋ := by
            simp [pyInt, hq]
          have hfpos : 0 < ⌊pf.cash / price⌋ := by
            rw [hpy] at haff
            omega
          have hspos : (0:ℚ) < ((pyInt (pf.cash / price) : ℤ) : ℚ) := by
            rw [hpy]
            exact_mod_cast hfpos
          have hfl : price * ((pyInt (pf.cash / price) : ℤ) : ℚ) ≤ pf.cash := by
            rw [hpy]
            have h1 : ((⌊pf.cash / price⌋ : ℤ) : ℚ) ≤ pf.cash / price :=
              Int.floor_le _
            calc price * ((⌊pf.cash / price⌋ : ℤ) : ℚ)
                ≤ price * (pf.cash / price) :=
                  mul_le_mul_of_nonneg_left h1 hppos.le
              _ = pf.cash := by field_simp
          obtain ⟨hnd', hpos'⟩ := buyPositions_wf price
            ((pyInt (pf.cash / price) : ℤ) : ℚ) hnd hpos hspos
          exact ⟨by simp only; linarith, hnd', hpos'⟩
      · rw [if_neg hex]
        obtain ⟨hnd', hpos'⟩ := buyPositions_wf price shs hnd hpos hshares
        refine ⟨?_, hnd', hpos'⟩
        simp only
        have := not_lt.mp hex
        linarith
    | sell =>
      rw [execute_trade_sell_eq]
      cases hfind : findPosition pf.positions sym with
      | none => exact ⟨hcash, hnd, hpos⟩
      | some existing =>
        obtain ⟨hnd', hpos'⟩ := sellPositions_wf (min shs existing.shares)
          hfind hnd hpos
        refine ⟨?_, hnd', hpos'⟩
        simp only
        have hmin : 0 ≤ min shs existing.shares :=
          le_min hshares.le (hpos existing (findPosition_mem hfind).1).le
        have : 0 ≤ min shs existing.shares * price := mul_nonneg hmin hp
        linarith
    | dividend =>
      exact ⟨hcash, hnd, hpos⟩

/-- C7 witness: buying 2 positive shares at price 50 into a well-formed
portfolio keeps the invariant. -/
theorem C7_invariant_preserved_witness :
    PortfolioWF ⟨1000, [⟨"AAPL", 5, 100, 100⟩]⟩ ∧ (0:ℚ) < 2 ∧
    PortfolioWF (execute_trade_md (fun _ => some 50)
        ⟨1000, [⟨"AAPL", 5, 100, 100⟩]⟩
        ⟨TransactionType.buy, "AAPL", 2, 9/10⟩).1 := by
  have hwf : PortfolioWF ⟨1000, [⟨"AAPL", 5, 100, 100⟩]⟩ := by
    simp [PortfolioWF]
  refine ⟨hwf, by norm_num, ?_⟩
  exact C7_invariant_preserved (fun _ => some 50) _ _ hwf (by norm_num)
    (fun p hp => by
      rw [← Option.some.inj hp]
      norm_num)

/-! ### C8: risk-parity rebalance (dalio.py) -/

/-- `DalioAgent._calculate_current_allocation` read back through
`current_allocation.get(symbol, 0)`: the weight of `sym` is its market value
over total value (dict comprehension keeps the last matching position; the
allocation is empty when total value ≤ 0). -/
def current_allocation_weight (pf : Portfolio) (sym : String) : ℚ :=
  if pf.total_value ≤ 0 then 0
  else
    match (pf.positions.filter (fun p => p.symbol == sym)).getLast? with
    | none => 0
    | some p => p.market_value / pf.total_value

/-- One iteration of the rebalance loop of
`DalioAgent.generate_recommendations` (dalio.py lines 97-133) for the target
asset `sym` with target weight `target_weight`. -/
def dalio_step (md : String → Option ℚ) (pf : Portfolio) (sym : String)
    (target_weight : ℚ) : Option TradeRecommendation :=
  let current_weight := current_allocation_weight pf sym
  let drift := |current_weight - target_weight|
  if 1/20 < drift then
    match md sym with
    | none => none
    | some price =>
      let total_value := pf.total_value
      let target_value := total_value * target_weight
      let current_value := total_value * current_weight
      if current_weight < target_weight then
        let value_to_buy := target_value - current_value
        let shares := pyInt (value_to_buy / price)
        if 0 < shares ∧ value_to_buy ≤ pf.cash then
          some ⟨TransactionType.buy, sym, (shares : ℚ), 17/20⟩
        else none
      else
        let value_to_sell := current_value - target_value
        let shares := pyInt (value_to_sell / price)
        match findPosition pf.positions sym with
        | none => none
        | some position =>
          if 0 < shares ∧ (shares : ℚ) ≤ position.shares then
            some ⟨TransactionType.sell, sym, (shares : ℚ), 17/20⟩
          else none
  else none

/-- The rebalance loop over the whole target allocation. -/
def dalio_rebalance (md : String → Option ℚ) (pf : Portfolio)
    (targets : List (String × ℚ)) : List TradeRecommendation :=
  targets.filterMap (fun sw => dalio_step md pf sw.1 sw.2)

/-- `ALL_WEATHER_ALLOCATION` from dalio.py. -/
def ALL_WEATHER_ALLOCATION : List (String × ℚ) :=
  [("VTI", 3/10), ("TLT", 2/5), ("IEI", 3/20), ("GLD", 3/40), ("DBC", 3/40)]

example :
    dalio_step (fun _ => none) ⟨0, []⟩ "VTI" (3/10) = none := by
  norm_num [dalio_step, current_allocation_weight, Portfolio.total_value]

/-- C8.  In the risk-parity rebalance loop, for a target asset whose weight
drifts more than 5 percentage points from target: on the under-target side a
buy of `int((target_value−current_value)/price)` shares is emitted exactly
when that share count is positive and the full shortfall value is covered by
cash; on the over-target side a sell of
`int((current_value−target_value)/price)` shares is emitted exactly when that
count is positive and the held position covers it; buys are emitted only when
funded, sells only when covered; a drift within the threshold emits
nothing. -/
theorem C8_dalio_step_spec (md : String → Option ℚ) (pf : Portfolio)
    (sym : String) (w price : ℚ) (hmd : md sym = some price) :
    (1/20 < |current_allocation_weight pf sym - w| →
      current_allocation_weight pf sym < w →
      0 < pyInt ((pf.total_value * w
          - pf.total_value * current_allocation_weight pf sym) / price) →
      pf.total_value * w - pf.total_value * current_allocation_weight pf sym
          ≤ pf.cash →
      dalio_step md pf sym w =
        some ⟨TransactionType.buy, sym,
          ((pyInt ((pf.total_value * w
            - pf.total_value * current_allocation_weight pf sym) / price) : ℤ) : ℚ),
          17/20⟩) ∧
    (∀ r, dalio_step md pf sym w = some r → r.action = TransactionType.buy →
      pf.total_value * w - pf.total_value * current_allocation_weight pf sym
          ≤ pf.cash ∧
      r.shares = ((pyInt ((pf.total_value * w
          - pf.total_value * current_allocation_weight pf sym) / price) : ℤ) : ℚ)) ∧
    (∀ pos, findPosition pf.positions sym = some pos →
      1/20 < |current_allocation_weight pf sym - w| →
      ¬ current_allocation_weight pf sym < w →
      0 < pyInt ((pf.total_value * current_allocation_weight pf sym
          - pf.total_value * w) / price) →
      ((pyInt ((pf.total_value * current_allocation_weight pf sym
          - pf.total_value * w) / price) : ℤ) : ℚ) ≤ pos.shares →
      dalio_step md pf sym w =
        some ⟨TransactionType.sell, sym,
          ((pyInt ((pf.total_value * current_allocation_weight pf sym
            - pf.total_value * w) / price) : ℤ) : ℚ),
          17/20⟩) ∧
    (∀ r, dalio_step md pf sym w = some r → r.action = TransactionType.sell →
      ∃ pos, findPosition pf.positions sym = some pos ∧
        r.shares ≤ pos.shares ∧
        r.shares = ((pyInt ((pf.total_value * current_allocation_weight pf sym
          - pf.total_value * w) / price) : ℤ) : ℚ)) ∧
    (¬ 1/20 < |current_allocation_weight pf sym - w| →
      dalio_step md pf sym w = none) := by
  by_cases hdr : 1/20 < |current_allocation_weight pf sym - w|
  · by_cases hcw : current_allocation_weight pf sym < w
    · have hstep : dalio_step md pf sym w =
          if 0 < pyInt ((pf.total_value * w
              - pf.total_value * current_allocation_weight pf sym) / price) ∧
            pf.total_value * w - pf.total_value * current_allocation_weight pf sym
              ≤ pf.cash then
            some ⟨TransactionType.buy, sym,
              ((pyInt ((pf.total_value * w
                - pf.total_value * current_allocation_weight pf sym) / price) : ℤ) : ℚ),
              17/20⟩
          else none := by
        simp only [dalio_step, if_pos hdr, hmd, if_pos hcw]
      refine ⟨?_, ?_, ?_, ?_, fun h => absurd hdr h⟩
      · intro _ _ hsh hcash
        rw [hstep, if_pos ⟨hsh, hcash⟩]
      · intro r hr _
        rw [hstep] at hr
        by_cases hcond : 0 < pyInt ((pf.total_value * w
            - pf.total_value * current_allocation_weight pf sym) / price) ∧
            pf.total_value * w - pf.total_value * current_allocation_weight pf sym
              ≤ pf.cash
        · rw [if_pos hcond] at hr
          have := Option.some.inj hr
          rw [← this]
          exact ⟨hcond.2, rfl⟩
        · rw [if_neg hcond] at hr
          cases hr
      · intro pos _ _ hcw' _ _
        exact absurd hcw hcw'
      · intro r hr hract
        rw [hstep] at hr
        by_cases hcond : 0 < pyInt ((pf.total_value * w
            - pf.total_value * current_allocation_weight pf sym) / price) ∧
            pf.total_value * w - pf.total_value * current_allocation_weight pf sym
              ≤ pf.cash
        · rw [if_pos hcond] at hr
          rw [← Option.some.inj hr] at hract
          cases hract
        · rw [if_neg hcond] at hr
          cases hr
    · have hstep : dalio_step md pf sym w =
          match findPosition pf.positions sym with
          | none => none
          | some position =>
            if 0 < pyInt ((pf.total_value * current_allocation_weight pf sym
                - pf.total_value * w) / price) ∧
              ((pyInt ((pf.total_value * current_allocation_weight pf sym
                - pf.total_value * w) / price) : ℤ) : ℚ) ≤ position.shares then
              some ⟨TransactionType.sell, sym,
                ((pyInt ((pf.total_value * current_allocation_weight pf sym
                  - pf.total_value * w) / price) : ℤ) : ℚ),
                17/20⟩
            else none := by
        simp only [dalio_step, if_pos hdr, hmd, if_neg hcw]
      refine ⟨?_, ?_, ?_, ?_, fun h => absurd hdr h⟩
      · intro _ hcw' _ _
        exact absurd hcw' hcw
      · intro r hr hract
        rw [hstep] at hr
        cases hfind : findPosition pf.positions sym with
        | none =>
          simp only [hfind] at hr
          cases hr
        | some pos =>
          simp only [hfind] at hr
          by_cases hcond : 0 < pyInt ((pf.total_value * current_allocation_weight pf sym
              - pf.total_value * w) / price) ∧
              ((pyInt ((pf.total_value * current_allocation_weight pf sym
                - pf.total_value * w) / price) : ℤ) : ℚ) ≤ pos.shares
          · rw [if_pos hcond] at hr
            rw [← Option.some.inj hr] at hract
            cases hract
          · rw [if_neg hcond] at hr
            cases hr
      · intro pos hfind _ _ hsh hle
        rw [hstep]
        simp only [hfind]
        rw [if_pos ⟨hsh, hle⟩]
      · intro r hr _
        rw [hstep] at hr
        cases hfind : findPosition pf.positions sym with
        | none =>
          simp only [hfind] at hr
          cases hr
        | some pos =>
          simp only [hfind] at hr
          by_cases hcond : 0 < pyInt ((pf.total_value * current_allocation_weight pf sym
              - pf.total_value * w) / price) ∧
              ((pyInt ((pf.total_value * current_allocation_weight pf sym
                - pf.total_value * w) / price) : ℤ) : ℚ) ≤ pos.shares
          · rw [if_pos hcond] at hr
            exact ⟨pos, rfl, by rw [← Option.some.inj hr]; exact hcond.2, by
              rw [← Option.some.inj hr]⟩
          · rw [if_neg hcond] at hr
            cases hr
  · have hstep : dalio_step md pf sym w = none := by
      simp only [dalio_step, if_neg hdr]
    refine ⟨fun h => absurd h hdr, ?_, ?_, ?_, fun _ => hstep⟩
    · intro r hr _
      rw [hstep] at hr
      cases hr
    · intro pos _ h _ _ _
      exact absurd h hdr
    · intro r hr _
      rw [hstep] at hr
      cases hr

/-- C8 witness: a VTI holding at 45% weight vs a 30% target (total value
1000, price 10, 45 shares held) triggers a sell of
`int(150/10) = 15` shares, and executing that sell at the same price brings
the weight to exactly 30%. -/
theorem C8_dalio_step_spec_witness :
    dalio_step (fun _ => some 10) ⟨0, [⟨"VTI", 45, 10, 10⟩, ⟨"BND", 55, 10, 10⟩]⟩
        "VTI" (3/10)
      = some ⟨TransactionType.sell, "VTI", 15, 17/20⟩ ∧
    current_allocation_weight
      (execute_trade 10 ⟨0, [⟨"VTI", 45, 10, 10⟩, ⟨"BND", 55, 10, 10⟩]⟩
        ⟨TransactionType.sell, "VTI", 15, 17/20⟩).1 "VTI" = 3/10 := by
  have htv : Portfolio.total_value
      ⟨0, [⟨"VTI", 45, 10, 10⟩, ⟨"BND", 55, 10, 10⟩]⟩ = 1000 := by
    norm_num [Portfolio.total_value, Position.market_value]
  have hb : (("BND" == "VTI") : Bool) = false := by decide
  have hw : current_allocation_weight
      ⟨0, [⟨"VTI", 45, 10, 10⟩, ⟨"BND", 55, 10, 10⟩]⟩ "VTI" = 9/20 := by
    norm_num [current_allocation_weight, Portfolio.total_value,
      Position.market_value, List.filter, List.getLast?, hb]
  have hfind : findPosition
      (⟨0, [⟨"VTI", 45, 10, 10⟩, ⟨"BND", 55, 10, 10⟩]⟩ : Portfolio).positions "VTI"
      = some ⟨"VTI", 45, 10, 10⟩ := by
    norm_num [findPosition, List.find?]
  constructor
  · have hstep := (C8_dalio_step_spec (fun _ => some 10)
        ⟨0, [⟨"VTI", 45, 10, 10⟩, ⟨"BND", 55, 10, 10⟩]⟩ "VTI" (3/10) 10 rfl).2.2.1
        ⟨"VTI", 45, 10, 10⟩ hfind
        (by
          rw [hw, show (9:ℚ)/20 - 3/10 = 3/20 by norm_num,
            abs_of_pos (by norm_num : (0:ℚ) < 3/20)]
          norm_num)
        (by rw [hw]; norm_num)
        (by rw [hw, htv]; norm_num [pyInt])
        (by rw [hw, htv]; norm_num [pyInt])
    rw [hw, htv] at hstep
    norm_num [pyInt] at hstep
    convert hstep using 3
  · have hexec : (execute_trade 10
        ⟨0, [⟨"VTI", 45, 10, 10⟩, ⟨"BND", 55, 10, 10⟩]⟩
        ⟨TransactionType.sell, "VTI", 15, 17/20⟩).1
        = ⟨150, [⟨"VTI", 30, 10, 10⟩, ⟨"BND", 55, 10, 10⟩]⟩ := by
      simp only [execute_trade, findPosition, updateFirst, pyInt]
      norm_num [List.find?, min_def]
    rw [hexec]
    norm_num [current_allocation_weight, Portfolio.total_value,
      Position.market_value, List.filter, List.getLast?, hb]

/-! ### C9: Graham intrinsic value and margin of safety -/

/-- `StockFundamentals` (yfinance_client.py) restricted to the fields the
Graham valuation reads; the source's `pe_ratio` field is called `pe` here.
`price` is a required float, whose only Python-falsy value is 0. -/
structure StockFundamentals where
  price : ℚ
  pe : Option ℚ
  earnings_growth : Option ℚ
deriving DecidableEq, Repr

/-- `GrahamAgent._calculate_intrinsic_value` (graham.py lines 177-195):
returns 0 when price is falsy or P/E is missing/≤0; otherwise
`EPS × (8.5 + 2·growth_rate)` where `growth_rate` stays at the default 5
unless `data.earnings_growth` is truthy (present *and* nonzero), in which
case it is `min(15, max(0, earnings_growth*100))`. -/
def calculate_intrinsic_value (d : StockFundamentals) : ℚ :=
  match d.pe with
  | none => 0
  | some pe =>
    if d.price = 0 ∨ pe ≤ 0 then 0
    else
      let eps := d.price / pe
      let growth_rate : ℚ :=
        match d.earnings_growth with
        | none => 5
        | some e => if e = 0 then 5 else min 15 (max 0 (e * 100))
      eps * (17/2 + 2 * growth_rate)

/-- `GrahamAgent._calculate_margin_of_safety` (graham.py lines 197-207). -/
def calculate_margin_of_safety (d : StockFundamentals) (intrinsic : ℚ) : ℚ :=
  if intrinsic ≤ 0 ∨ d.price = 0 then 0
  else max 0 ((intrinsic - d.price) / intrinsic)

/-- The intrinsic-value formula exactly as the claim words it:
`EPS × (8.5 + 2 × growth_pct)` with `growth_pct` clamped to [0, 15]
(spec-words definition, for comparison with the code's). -/
def claimed_intrinsic_value (price pe growth_pct : ℚ) : ℚ :=
  (price / pe) * (17/2 + 2 * min 15 (max 0 growth_pct))

/-- C9 counterexample: at earnings growth exactly 0 the code's Python
truthiness test skips the clamp and uses the default growth 5, returning
EPS × 18.5 = 92.5 where the claim's clamped formula gives EPS × 8.5 =
42.5. -/
theorem C9_intrinsic_zero_growth_cex :
    calculate_intrinsic_value ⟨50, some 10, some 0⟩ = 185/2 ∧
    claimed_intrinsic_value 50 10 (0 * 100) = 85/2 ∧
    calculate_intrinsic_value ⟨50, some 10, some 0⟩
      ≠ claimed_intrinsic_value 50 10 (0 * 100) := by
  refine ⟨?_, ?_, ?_⟩ <;>
    norm_num [calculate_intrinsic_value, claimed_intrinsic_value]

/-- C9 (amended).  With P/E present and positive, price nonzero, and
earnings growth present and nonzero, the intrinsic value is
`EPS × (8.5 + 2 × clamp(growth·100, 0, 15))` with `EPS = price / pe`; for a
positive intrinsic value the margin of safety is
`max(0, (intrinsic − price)/intrinsic)`; in particular price 50, P/E 10,
growth 5% give intrinsic 92.5 and margin 17/37 ≈ 45.9%. -/
theorem C9_graham_formulas (d : StockFundamentals) (pe g : ℚ)
    (hpe : d.pe = some pe) (hpepos : 0 < pe) (hprice : d.price ≠ 0)
    (hg : d.earnings_growth = some g) (hg0 : g ≠ 0) :
    calculate_intrinsic_value d
      = (d.price / pe) * (17/2 + 2 * min 15 (max 0 (g * 100))) ∧
    (0 < calculate_intrinsic_value d →
      calculate_margin_of_safety d (calculate_intrinsic_value d)
        = max 0 ((calculate_intrinsic_value d - d.price)
            / calculate_intrinsic_value d)) ∧
    calculate_intrinsic_value ⟨50, some 10, some (1/20)⟩ = 185/2 ∧
    calculate_margin_of_safety ⟨50, some 10, some (1/20)⟩ (185/2) = 17/37 := by
  have hcond : ¬ (d.price = 0 ∨ pe ≤ 0) := by
    push_neg
    exact ⟨hprice, hpepos⟩
  have h1 : calculate_intrinsic_value d
      = (d.price / pe) * (17/2 + 2 * min 15 (max 0 (g * 100))) := by
    simp only [calculate_intrinsic_value, hpe, hg, if_neg hcond, if_neg hg0]
  refine ⟨h1, ?_, ?_, ?_⟩
  · intro hpos
    have hcond₂ : ¬ (calculate_intrinsic_value d ≤ 0 ∨ d.price = 0) := by
      push_neg
      exact ⟨hpos, hprice⟩
    simp only [calculate_margin_of_safety, if_neg hcond₂]
  · norm_num [calculate_intrinsic_value, min_def, max_def]
  · norm_num [calculate_margin_of_safety, max_def]

/-- C9 witness: the concrete Graham example (price 50, P/E 10, growth 5%). -/
theorem C9_graham_formulas_witness :
    calculate_intrinsic_value ⟨50, some 10, some (1/20)⟩
      = ((50:ℚ) / 10) * (17/2 + 2 * min 15 (max 0 ((1/20) * 100))) ∧
    calculate_intrinsic_value ⟨50, some 10, some (1/20)⟩ = 185/2 ∧
    calculate_margin_of_safety ⟨50, some 10, some (1/20)⟩ (185/2) = 17/37 := by
  have h := C9_graham_formulas ⟨50, some 10, some (1/20)⟩ 10 (1/20) rfl
    (by norm_num) (by norm_num) rfl (by norm_num)
  exact ⟨h.1, h.2.2.1, h.2.2.2⟩

/-! ### C10: total value is preserved by executions at the last known price -/

theorem buyPositions_sumMV {pf : Portfolio} {sym : String} (price s : ℚ)
    (hcp : ∀ pos, findPosition pf.positions sym = some pos →
      pos.current_price = price) :
    ((buyPositions price pf sym s).map Position.market_value).sum
      = (pf.positions.map Position.market_value).sum + s * price := by
  cases hfind : findPosition pf.positions sym with
  | some pos =>
    simp only [buyPositions, hfind]
    rw [sumMV_updateFirst (fun p =>
      { p with
          avg_cost := (p.shares * p.avg_cost + price * s) / (p.shares + s),
          shares := p.shares + s,
          current_price := price }) hfind]
    have hp := hcp pos hfind
    simp only [Position.market_value, hp]
    ring
  | none =>
    simp only [buyPositions, hfind, List.map_append, List.sum_append,
      List.map_cons, List.map_nil, List.sum_cons, List.sum_nil,
      Position.market_value]
    ring

theorem sellPositions_sumMV {pf : Portfolio} {sym : String}
    {existing : Position} (sts : ℚ)
    (hfind : findPosition pf.positions sym = some existing)
    (hnd : (pf.positions.map Position.symbol).Nodup)
    (hsts : sts ≤ existing.shares) :
    ((sellPositions pf sym sts existing).map Position.market_value).sum
      = (pf.positions.map Position.market_value).sum
        - sts * existing.current_price := by
  by_cases hle : existing.shares - sts ≤ 0
  · have hsf : sts = existing.shares := le_antisymm hsts (by linarith)
    simp only [sellPositions, if_pos hle]
    have hnd₁ : ((updateFirst pf.positions sym
        (fun p => { p with shares := p.shares - sts })).map Position.symbol).Nodup := by
      rw [map_symbol_updateFirst pf.positions sym
          (fun p => { p with shares := p.shares - sts }) (fun p => rfl)]
      exact hnd
    have hfind₁ : findPosition (updateFirst pf.positions sym
        (fun p => { p with shares := p.shares - sts })) sym
        = some { existing with shares := existing.shares - sts } := by
      rw [findPosition_updateFirst pf.positions sym
          (fun p => { p with shares := p.shares - sts }) (fun p => rfl), hfind]
      rfl
    rw [sumMV_filter_ne hnd₁ hfind₁,
      sumMV_updateFirst (fun p => { p with shares := p.shares - sts }) hfind]
    simp only [Position.market_value, hsf]
    ring
  · simp only [sellPositions, if_neg hle]
    rw [sumMV_updateFirst (fun p => { p with shares := p.shares - sts }) hfind]
    simp only [Position.market_value]
    ring

/-- C10.  Any successful execution whose execution price equals the traded
position's last known price (vacuously so for a buy opening a new position)
leaves `total_value` unchanged: the cash delta exactly offsets the change in
aggregate position market value.  (Uniqueness of symbols — part of the
portfolio invariant — is assumed, as full liquidation removes every position
with the traded symbol.) -/
theorem C10_total_value_invariant (md : String → Option ℚ) (pf : Portfolio)
    (rec : TradeRecommendation) (price : ℚ) (t : Transaction)
    (hmd : md rec.symbol = some price)
    (hnd : (pf.positions.map Position.symbol).Nodup)
    (ht : (execute_trade_md md pf rec).2.2 = some t)
    (hprice : ∀ pos, findPosition pf.positions rec.symbol = some pos →
      pos.current_price = price) :
    (execute_trade_md md pf rec).1.total_value = pf.total_value := by
  obtain ⟨act, sym, shs, conf⟩ := rec
  simp only [execute_trade_md, hmd] at ht ⊢
  cases act with
  | buy =>
    rw [execute_trade_buy_eq]
    by_cases hex : pf.cash < price * shs
    · rw [if_pos hex]
      by_cases haff : pyInt (pf.cash / price) ≤ 0
      · rw [if_pos haff]
      · rw [if_neg haff]
        simp only [Portfolio.total_value]
        rw [buyPositions_sumMV price ((pyInt (pf.cash / price) : ℤ) : ℚ) hprice]
        ring
    · rw [if_neg hex]
      simp only [Portfolio.total_value]
      rw [buyPositions_sumMV price shs hprice]
      ring
  | sell =>
    rw [execute_trade_sell_eq]
    cases hfind : findPosition pf.positions sym with
    | none => rfl
    | some existing =>
      simp only [Portfolio.total_value]
      rw [sellPositions_sumMV (min shs existing.shares) hfind hnd
        (min_le_right _ _)]
      rw [hprice existing hfind]
      ring
  | dividend => rfl

/-- C10 witness: a buy opening a new position (2 shares at 50 from 1000
cash) leaves total value at exactly 1000. -/
theorem C10_total_value_invariant_witness :
    (execute_trade_md (fun _ => some 50) ⟨1000, []⟩
        ⟨TransactionType.buy, "MSFT", 2, 4/5⟩).2.2
      = some ⟨TransactionType.buy, "MSFT", 2, 50⟩ ∧
    (execute_trade_md (fun _ => some 50) ⟨1000, []⟩
        ⟨TransactionType.buy, "MSFT", 2, 4/5⟩).1.total_value
      = Portfolio.total_value ⟨1000, []⟩ := by
  have ht : (execute_trade_md (fun _ => some 50) ⟨1000, []⟩
      ⟨TransactionType.buy, "MSFT", 2, 4/5⟩).2.2
      = some ⟨TransactionType.buy, "MSFT", 2, 50⟩ := by
    simp only [execute_trade_md, execute_trade, findPosition, updateFirst, pyInt]
    norm_num [List.find?]
  refine ⟨ht, ?_⟩
  exact C10_total_value_invariant (fun _ => some 50) ⟨1000, []⟩
    ⟨TransactionType.buy, "MSFT", 2, 4/5⟩ 50 ⟨TransactionType.buy, "MSFT", 2, 50⟩
    rfl (by simp) ht (fun pos h => Option.noConfusion h)
